import Mathlib

/-
Verification of the file-discovery engine of llm-code-context-generator
(src/llm_code_context_generator/main.py).

Modelling conventions:
- A directory tree is a list of entries; an entry is a file (with its name)
  or a directory (with its name and children).  This is the structure that
  os.walk(root_path, topdown=True) traverses: per directory it yields the
  file names and the subdirectory names, and pruning a subdirectory stops
  the descent into it.
- A discovered file is identified by its list of path components relative
  to the scan root; relPath renders it as the POSIX relative path string
  that the Python code computes with os.path.relpath(...).replace(os.sep, '/').
  The absolute path the code appends is root + "/" + relPath comps, so the
  component list determines the result entry.
- Python sets of strings are modelled as lists of strings; the only
  operations the code performs on them are membership tests ("in", which is
  string equality against each element), copy, and update (union), so list
  membership is an exact model.
- The optional gitignore matcher (a compiled pathspec.PathSpec) is modelled
  as an opaque predicate on path strings, Option (String -> Bool): the code
  only ever calls spec.match_file(path).
-/

inductive Entry where
  | file : String → Entry
  | dir : String → List Entry → Entry
deriving Repr

/-- Names of the plain files among a directory's entries
(the filenames component of an os.walk step). -/
def filesOf (entries : List Entry) : List String :=
  entries.filterMap fun e =>
    match e with
    | Entry.file n => some n
    | Entry.dir _ _ => none

/-- Names of the subdirectories among a directory's entries
(the dirnames component of an os.walk step). -/
def dirNames (entries : List Entry) : List String :=
  entries.filterMap fun e =>
    match e with
    | Entry.file _ => none
    | Entry.dir d _ => some d

/-- POSIX relative path of a component list, as produced by
os.path.relpath(full_path, root_path).replace(os.path.sep, '/'). -/
def relPath : List String → String
  | [] => ""
  | [s] => s
  | s :: rest => s ++ "/" ++ relPath rest

/-- Python str.startswith: the candidate is a character-sequence
of the string. -/
def strStartsWith (s p : String) : Bool :=
  p.data.isPrefixOf s.data

/-- Extension of a bare filename, as computed by os.path.splitext(filename):
the suffix from the last dot on, except that the run of leading dots of the
name never starts an extension (so a dotfile such as ".gitignore" has
extension ""). -/
def extOf (filename : String) : String :=
  let rest := filename.data.dropWhile (fun c => c == '.')
  if rest.contains '.' then
    String.mk ('.' :: (rest.reverse.takeWhile (fun c => c != '.')).reverse)
  else ""

/-- The resolved policy: the six string sets of the config dictionary built
by load_config. -/
structure Config where
  allowed_dirs : List String
  allowed_files : List String
  allowed_extensions : List String
  ignored_dirs : List String
  ignored_files : List String
  ignored_extensions : List String
deriving Repr

def DEFAULT_IGNORED_DIRS : List String := [
  ".git", ".github", ".vscode", ".idea", "node_modules", "__pycache__", "venv",
  ".venv", "env", ".env", ".pytest_cache", ".mypy_cache", ".tox", "htmlcov",
  "build", "dist", "target", "out", "bin", "obj", "wheels", "dist-packages",
  "__MACOSX", "*.egg-info", "site-packages", "docs_build", "builddocs",
  "bower_components", "jspm_packages"]

def DEFAULT_IGNORED_FILES : List String := [
  ".env", ".env.local", ".env.production", ".env.development", ".env.test", ".env.*",
  "package-lock.json", "yarn.lock", "pnpm-lock.yaml",
  "poetry.lock", "Pipfile.lock", "composer.lock", "Gemfile.lock", "go.sum",
  "*.swp", "*.swo", "*.swn", ".*.swp",
  "thumbs.db",
  ".travis.yml", "circle.yml", "appveyor.yml", "Jenkinsfile"]

def DEFAULT_IGNORED_EXTENSIONS : List String := [
  ".png", ".jpg", ".jpeg", ".gif", ".svg", ".ico", ".webp", ".bmp", ".tiff", ".psd",
  ".mp4", ".mov", ".avi", ".mkv", ".webm", ".flv", "wmv",
  ".mp3", ".wav", ".ogg", ".flac", ".m4a", "aac",
  ".woff", ".woff2", ".ttf", ".otf", ".eot",
  ".zip", ".rar", ".tar", ".gz", ".7z", ".bz2", "tgz",
  ".pdf", ".docx", ".xlsx", ".pptx", ".epub", ".mobi", ".csv", ".xls", ".doc", ".ppt",
  ".pyc", ".pyo", ".pyd", ".o", ".so", ".a",
  ".log", ".lock", ".db", ".sqlite3", ".sqlitedb", ".dump", "bak", ".tmp", ".dat",
  ".DS_Store",
  ".class",
  ".dll", ".exe", ".lib",
  ".bin", ".iso", ".out", ".elf",
  ".obj", ".o",
  ".jar",
  ".wasm",
  ".key", ".pem", ".crt", ".cer", ".p12", ".pfx", ".jks", ".p7b", "gpg",
  ".gitignore", ".gitattributes", ".dockerignore", ".gitkeep",
  ".md", ".markdown", ".rst",
  ".sh", ".bat", ".ps1", ".cmd",
  ".xml", ".json", ".yaml", ".yml", ".toml", ".ini"]

def DEFAULT_ALLOWED_DIRS : List String := []
def DEFAULT_ALLOWED_FILES : List String := []
def DEFAULT_ALLOWED_EXTENSIONS : List String := []

/-- The config dictionary of copies of the defaults that load_config builds
before looking at the configuration file. -/
def defaultConfig : Config :=
  { allowed_dirs := DEFAULT_ALLOWED_DIRS
    allowed_files := DEFAULT_ALLOWED_FILES
    allowed_extensions := DEFAULT_ALLOWED_EXTENSIONS
    ignored_dirs := DEFAULT_IGNORED_DIRS
    ignored_files := DEFAULT_IGNORED_FILES
    ignored_extensions := DEFAULT_IGNORED_EXTENSIONS }

/-- The [tool.llmcontext] dictionary of pyproject.toml as load_config sees
it: each of the six keys may be present or absent, and the dictionary may
hold further keys (otherKeys), which only matter for its truthiness. -/
structure UserSection where
  allowed_dirs : Option (List String)
  allowed_files : Option (List String)
  allowed_extensions : Option (List String)
  ignored_dirs : Option (List String)
  ignored_files : Option (List String)
  ignored_extensions : Option (List String)
  otherKeys : Bool
deriving Repr

/-- Python truthiness of the user_config dictionary: non-empty. -/
def UserSection.truthy (s : UserSection) : Bool :=
  s.otherKeys || s.allowed_dirs.isSome || s.allowed_files.isSome ||
  s.allowed_extensions.isSome || s.ignored_dirs.isSome ||
  s.ignored_files.isSome || s.ignored_extensions.isSome

/-- load_config: the argument is none when no configuration file is read
(missing file, missing TOML library, or a parse error, all of which leave
the defaults untouched), and some sec when the file parses, sec being the
[tool.llmcontext] section (the empty dictionary when the section is
absent).  Allowed lists replace the defaults; ignored lists are unioned
into the defaults. -/
def load_config (sec? : Option UserSection) : Config :=
  match sec? with
  | none => defaultConfig
  | some sec =>
    if sec.truthy then
      { allowed_dirs := sec.allowed_dirs.getD DEFAULT_ALLOWED_DIRS
        allowed_files := sec.allowed_files.getD DEFAULT_ALLOWED_FILES
        allowed_extensions := sec.allowed_extensions.getD DEFAULT_ALLOWED_EXTENSIONS
        ignored_dirs := DEFAULT_IGNORED_DIRS ++ sec.ignored_dirs.getD []
        ignored_files := DEFAULT_IGNORED_FILES ++ sec.ignored_files.getD []
        ignored_extensions := DEFAULT_IGNORED_EXTENSIONS ++ sec.ignored_extensions.getD [] }
    else defaultConfig

/-- Application of the optional gitignore matcher: spec.match_file(path)
when a spec is loaded, no match otherwise. -/
def specMatch (spec : Option (String → Bool)) (path : String) : Bool :=
  match spec with
  | some m => m path
  | none => false

/-- Directory pruning test of discover_files: the bare name or the POSIX
relative path is in ignored_dirs, or the gitignore matcher matches the
relative path with a trailing slash appended. -/
def isIgnoredDir (cfg : Config) (spec : Option (String → Bool))
    (pre : List String) (d : String) : Bool :=
  cfg.ignored_dirs.contains d ||
  cfg.ignored_dirs.contains (relPath (pre ++ [d])) ||
  specMatch spec (relPath (pre ++ [d]) ++ "/")

/-- Step 1 of the file filter: is_force_allowed, the priority allow check.
The relative path is in allowed_files, or the extension is non-empty and in
allowed_extensions. -/
def isForceAllowed (cfg : Config) (pre : List String) (filename : String) : Bool :=
  cfg.allowed_files.contains (relPath (pre ++ [filename])) ||
  (extOf filename != "" && cfg.allowed_extensions.contains (extOf filename))

/-- The per-file decision of discover_files, steps 1 to 5: force allow,
then the allowed_dirs restriction (a startswith test against each entry,
already POSIX-normalized), then the ignored config check, then the
gitignore check; a file passing all checks is included. -/
def fileDecision (cfg : Config) (spec : Option (String → Bool))
    (pre : List String) (filename : String) : Bool :=
  if isForceAllowed cfg pre filename then true
  else if !cfg.allowed_dirs.isEmpty &&
          !(cfg.allowed_dirs.any fun p => strStartsWith (relPath (pre ++ [filename])) p) then
    false
  else if cfg.ignored_files.contains filename ||
          cfg.ignored_files.contains (relPath (pre ++ [filename])) ||
          (extOf filename != "" && cfg.ignored_extensions.contains (extOf filename)) then
    false
  else if specMatch spec (relPath (pre ++ [filename])) then false
  else true

mutual
/-- Contribution of one entry of a directory at relative position pre to
the walk: a file contributes nothing here (files are collected by the
enclosing directory), a subdirectory is pruned or contributes its own
included files followed by its subtree, in os.walk order. -/
def walkEntry (cfg : Config) (spec : Option (String → Bool))
    (pre : List String) : Entry → List (List String)
  | Entry.file _ => []
  | Entry.dir d cs =>
    if isIgnoredDir cfg spec pre d then []
    else ((filesOf cs).filter (fileDecision cfg spec (pre ++ [d]))).map
           (fun n => (pre ++ [d]) ++ [n])
         ++ walkList cfg spec (pre ++ [d]) cs

/-- Walk of the subdirectories of a directory's entry list, in order. -/
def walkList (cfg : Config) (spec : Option (String → Bool))
    (pre : List String) : List Entry → List (List String)
  | [] => []
  | e :: es => walkEntry cfg spec pre e ++ walkList cfg spec pre es
end

/-- discover_files: files of the root directory that pass the filter, then
the walk of its subdirectories, exactly the order os.walk(topdown=True)
visits them.  Each result element is the component list of one appended
full path. -/
def discover_files (cfg : Config) (spec : Option (String → Bool))
    (root : List Entry) : List (List String) :=
  ((filesOf root).filter (fileDecision cfg spec [])).map (fun n => [n])
  ++ walkList cfg spec [] root

/-- Files and walk of a directory whose entry list is entries at relative
position pre: the part of the result list that the walk produces from this
directory onwards.  discover_files is discoverAt at the root. -/
def discoverAt (cfg : Config) (spec : Option (String → Bool))
    (pre : List String) (entries : List Entry) : List (List String) :=
  ((filesOf entries).filter (fileDecision cfg spec pre)).map (fun n => pre ++ [n])
  ++ walkList cfg spec pre entries

/-- First subdirectory with the given name among a directory's entries
(unique in a well-formed tree, as on a real filesystem). -/
def findDir : List Entry → String → Option (List Entry)
  | [], _ => none
  | Entry.file _ :: es, d => findDir es d
  | Entry.dir d0 cs :: es, d => if d0 = d then some cs else findDir es d

/-- Navigation of the walk: the children of the directory reached from
entries (at relative position pre) by the component path, or none when a
component is missing or a directory on the way is pruned.  os.walk visits
exactly the directories this function reaches. -/
def visitedAt (cfg : Config) (spec : Option (String → Bool)) :
    List String → List Entry → List String → Option (List Entry)
  | _, children, [] => some children
  | pre, children, d :: rest =>
    match findDir children d with
    | none => none
    | some cs =>
      if isIgnoredDir cfg spec pre d then none
      else visitedAt cfg spec (pre ++ [d]) cs rest

/-- A directory entry's name does not recur among the later siblings
(files never clash with the walk's directory lookup). -/
def dupFreeHead : Entry → List Entry → Bool
  | Entry.file _, _ => true
  | Entry.dir d _, es => !((dirNames es).contains d)

mutual
/-- Well-formedness of one entry: its subtree has no duplicate directory
names at any level (true of any real directory tree). -/
def wfEntry : Entry → Bool
  | Entry.file _ => true
  | Entry.dir _ cs => wfChildren cs
/-- Well-formedness of an entry list: sibling directory names are distinct
and every subtree is well-formed. -/
def wfChildren : List Entry → Bool
  | [] => true
  | e :: es => dupFreeHead e es && wfEntry e && wfChildren es
end

lemma fileDecision_of_forceAllowed {cfg : Config} {spec : Option (String → Bool)}
    {pre : List String} {n : String} (h : isForceAllowed cfg pre n = true) :
    fileDecision cfg spec pre n = true := by
  simp [fileDecision, h]

lemma mem_discoverAt_of_file {cfg : Config} {spec : Option (String → Bool)}
    {pre : List String} {entries : List Entry} {n : String}
    (hn : n ∈ filesOf entries) (hd : fileDecision cfg spec pre n = true) :
    pre ++ [n] ∈ discoverAt cfg spec pre entries := by
  unfold discoverAt
  exact List.mem_append_left _ (List.mem_map_of_mem _ (List.mem_filter.mpr ⟨hn, hd⟩))

lemma discoverAt_sub_walkList {cfg : Config} {spec : Option (String → Bool)}
    {pre : List String} {d : String} {cs0 : List Entry} :
    ∀ {entries : List Entry}, findDir entries d = some cs0 →
      isIgnoredDir cfg spec pre d = false →
      ∀ x ∈ discoverAt cfg spec (pre ++ [d]) cs0, x ∈ walkList cfg spec pre entries := by
  intro entries
  induction entries with
  | nil => intro hf; simp [findDir] at hf
  | cons e es ih =>
    intro hf hp x hx
    cases e with
    | file m =>
      simp only [findDir] at hf
      simpa [walkList, walkEntry] using ih hf hp x hx
    | dir d0 cs1 =>
      by_cases hd0 : d0 = d
      · subst hd0
        simp [findDir] at hf
        subst hf
        simp only [walkList, walkEntry, hp, Bool.false_eq_true, if_false]
        exact List.mem_append_left _ (by simpa [discoverAt] using hx)
      · simp only [findDir, if_neg hd0] at hf
        simp only [walkList]
        exact List.mem_append_right _ (ih hf hp x hx)

lemma visited_file_mem_discoverAt {cfg : Config} {spec : Option (String → Bool)} :
    ∀ (path pre : List String) (entries cs : List Entry) (n : String),
      visitedAt cfg spec pre entries path = some cs →
      n ∈ filesOf cs → fileDecision cfg spec (pre ++ path) n = true →
      (pre ++ path ++ [n]) ∈ discoverAt cfg spec pre entries := by
  intro path
  induction path with
  | nil =>
    intro pre entries cs n hv hn hd
    simp only [visitedAt, Option.some.injEq] at hv
    subst hv
    simpa using mem_discoverAt_of_file hn (by simpa using hd)
  | cons d rest ih =>
    intro pre entries cs n hv hn hd
    unfold visitedAt at hv
    cases hfind : findDir entries d with
    | none => simp [hfind] at hv
    | some cs0 =>
      simp only [hfind] at hv
      by_cases hp : isIgnoredDir cfg spec pre d = true
      · simp [hp] at hv
      · simp only [hp, Bool.false_eq_true, if_false] at hv
        have hd' : fileDecision cfg spec ((pre ++ [d]) ++ rest) n = true := by
          simpa [List.append_assoc] using hd
        have hmem := ih (pre ++ [d]) cs0 cs n hv hn hd'
        have hmem' := discoverAt_sub_walkList hfind
          (by simpa using Bool.eq_false_iff.mpr hp) _ hmem
        have : (pre ++ [d]) ++ rest ++ [n] = pre ++ (d :: rest) ++ [n] := by
          simp [List.append_assoc]
        rw [this] at hmem'
        exact List.mem_append_right _ hmem'

lemma visitedAt_append {cfg : Config} {spec : Option (String → Bool)} :
    ∀ (p q pre : List String) (entries : List Entry),
      visitedAt cfg spec pre entries (p ++ q) =
        match visitedAt cfg spec pre entries p with
        | none => none
        | some cs => visitedAt cfg spec (pre ++ p) cs q := by
  intro p
  induction p with
  | nil => intro q pre entries; simp [visitedAt]
  | cons d rest ih =>
    intro q pre entries
    simp only [List.cons_append, visitedAt]
    cases findDir entries d with
    | none => rfl
    | some cs0 =>
      by_cases hp : isIgnoredDir cfg spec pre d = true
      · simp [hp]
      · simp only [hp, Bool.false_eq_true, if_false]
        have := ih q (pre ++ [d]) cs0
        simp only [List.append_eq] at this ⊢
        rw [this]
        simp [List.append_assoc]

lemma findDir_mem_dirNames : ∀ {es : List Entry} {d : String} {cs : List Entry},
    findDir es d = some cs → d ∈ dirNames es := by
  intro es
  induction es with
  | nil => intro d cs h; simp [findDir] at h
  | cons e es ih =>
    intro d cs h
    cases e with
    | file m => simp only [findDir] at h; simpa [dirNames] using ih h
    | dir d0 cs1 =>
      by_cases hd0 : d0 = d
      · subst hd0; simp [dirNames]
      · simp only [findDir, if_neg hd0] at h
        simp [dirNames]
        exact Or.inr (by simpa [dirNames] using ih h)

lemma wfChildren_cons_file {m : String} {es : List Entry} :
    wfChildren (Entry.file m :: es) = wfChildren es := by
  simp [wfChildren, wfEntry, dupFreeHead]

lemma wfChildren_cons_dir {d : String} {cs es : List Entry}
    (h : wfChildren (Entry.dir d cs :: es) = true) :
    (dirNames es).contains d = false ∧ wfChildren cs = true ∧ wfChildren es = true := by
  simp only [wfChildren, wfEntry, dupFreeHead, Bool.and_eq_true, Bool.not_eq_true'] at h
  exact ⟨h.1.1, h.1.2, h.2⟩

lemma visitedAt_cons_file {cfg : Config} {spec : Option (String → Bool)}
    {pre : List String} {m : String} {es : List Entry} {d0 : String} {path : List String} :
    visitedAt cfg spec pre (Entry.file m :: es) (d0 :: path) =
      visitedAt cfg spec pre es (d0 :: path) := by
  simp [visitedAt, findDir]

lemma visitedAt_cons_dir_ne {cfg : Config} {spec : Option (String → Bool)}
    {pre : List String} {d : String} {cs1 es : List Entry} {d0 : String}
    {path : List String} (hne : d ≠ d0) :
    visitedAt cfg spec pre (Entry.dir d cs1 :: es) (d0 :: path) =
      visitedAt cfg spec pre es (d0 :: path) := by
  simp [visitedAt, findDir, hne]

lemma visitedAt_cons_dir_self {cfg : Config} {spec : Option (String → Bool)}
    {pre : List String} {d : String} {cs1 es : List Entry} {path : List String} :
    visitedAt cfg spec pre (Entry.dir d cs1 :: es) (d :: path) =
      if isIgnoredDir cfg spec pre d then none
      else visitedAt cfg spec (pre ++ [d]) cs1 path := by
  simp [visitedAt, findDir]

lemma visitedAt_cons_some_findDir {cfg : Config} {spec : Option (String → Bool)}
    {pre : List String} {es : List Entry} {d0 : String} {path : List String}
    {cs : List Entry} (h : visitedAt cfg spec pre es (d0 :: path) = some cs) :
    ∃ cs0, findDir es d0 = some cs0 := by
  unfold visitedAt at h
  cases hfind : findDir es d0 with
  | none => simp [hfind] at h
  | some cs0 => exact ⟨cs0, rfl⟩

lemma walkList_complete {cfg : Config} {spec : Option (String → Bool)} :
    ∀ (N : Nat) (entries : List Entry), sizeOf entries ≤ N →
      ∀ (pre : List String), wfChildren entries = true →
      ∀ comps ∈ walkList cfg spec pre entries,
        ∃ d0 path n cs, visitedAt cfg spec pre entries (d0 :: path) = some cs ∧
          n ∈ filesOf cs ∧ fileDecision cfg spec (pre ++ (d0 :: path)) n = true ∧
          comps = pre ++ (d0 :: path) ++ [n] := by
  intro N
  induction N with
  | zero =>
    intro entries hsz pre hwf comps hc
    cases entries with
    | nil => simp [walkList] at hc
    | cons e es => exact absurd hsz (by simp)
  | succ N ih =>
    intro entries hsz pre hwf comps hc
    cases entries with
    | nil => simp [walkList] at hc
    | cons e es =>
      cases e with
      | file m =>
        simp only [walkList, walkEntry, List.nil_append] at hc
        have hwf' : wfChildren es = true := by rw [← wfChildren_cons_file]; exact hwf
        have hszes : sizeOf es ≤ N := by
          simp only [List.cons.sizeOf_spec] at hsz; omega
        obtain ⟨d0, path, n, cs, h1, h2, h3, h4⟩ := ih es hszes pre hwf' comps hc
        exact ⟨d0, path, n, cs, by rw [visitedAt_cons_file]; exact h1, h2, h3, h4⟩
      | dir d cs1 =>
        obtain ⟨hdup, hwfc, hwfes⟩ := wfChildren_cons_dir hwf
        have hszcs : sizeOf cs1 ≤ N := by
          simp only [List.cons.sizeOf_spec, Entry.dir.sizeOf_spec] at hsz; omega
        have hszes : sizeOf es ≤ N := by
          simp only [List.cons.sizeOf_spec, Entry.dir.sizeOf_spec] at hsz; omega
        have liftEs : ∀ comps ∈ walkList cfg spec pre es,
            ∃ d0 path n cs, visitedAt cfg spec pre (Entry.dir d cs1 :: es) (d0 :: path) = some cs ∧
              n ∈ filesOf cs ∧ fileDecision cfg spec (pre ++ (d0 :: path)) n = true ∧
              comps = pre ++ (d0 :: path) ++ [n] := by
          intro comps hc2
          obtain ⟨d0, path, n, cs, h1, h2, h3, h4⟩ := ih es hszes pre hwfes comps hc2
          obtain ⟨cs0, hfind⟩ := visitedAt_cons_some_findDir h1
          have hd0 : d ≠ d0 := by
            intro heq
            subst heq
            have := findDir_mem_dirNames hfind
            rw [← List.elem_iff] at this
            rw [show ((dirNames es).elem d = ((dirNames es).contains d)) from rfl, hdup] at this
            exact Bool.false_ne_true this
          exact ⟨d0, path, n, cs, by rw [visitedAt_cons_dir_ne hd0]; exact h1, h2, h3, h4⟩
        simp only [walkList, walkEntry] at hc
        by_cases hp : isIgnoredDir cfg spec pre d = true
        · simp only [hp, if_true, List.nil_append] at hc
          exact liftEs comps hc
        · simp only [hp, Bool.false_eq_true, if_false] at hc
          rcases List.mem_append.mp hc with hc1 | hc2
          · rcases List.mem_append.mp hc1 with hcf | hcw
            · obtain ⟨n, hn, heq⟩ := List.mem_map.mp hcf
              obtain ⟨hnf, hnd⟩ := List.mem_filter.mp hn
              refine ⟨d, [], n, cs1, ?_, hnf, ?_, ?_⟩
              · rw [visitedAt_cons_dir_self]
                simp [hp, visitedAt]
              · simpa using hnd
              · exact heq.symm
            · obtain ⟨d0, path, n, cs, h1, h2, h3, h4⟩ :=
                ih cs1 hszcs (pre ++ [d]) hwfc comps hcw
              refine ⟨d, d0 :: path, n, cs, ?_, h2, ?_, ?_⟩
              · rw [visitedAt_cons_dir_self]
                simp only [hp, Bool.false_eq_true, if_false]
                exact h1
              · simpa [List.append_assoc] using h3
              · simpa [List.append_assoc] using h4
          · exact liftEs comps hc2

/-- Characterization of the result list: comps is discovered exactly when
the walk reaches a directory (no missing component, no pruned directory on
the way), comps names a file of it, and the file decision accepts it.
Well-formedness (distinct sibling directory names, as on a real
filesystem) is needed for the forward direction. -/
theorem mem_discover_files_iff {cfg : Config} {spec : Option (String → Bool)}
    {root : List Entry} {comps : List String} (hwf : wfChildren root = true) :
    comps ∈ discover_files cfg spec root ↔
      ∃ path n cs, visitedAt cfg spec [] root path = some cs ∧ n ∈ filesOf cs ∧
        fileDecision cfg spec path n = true ∧ comps = path ++ [n] := by
  constructor
  · intro hc
    rcases List.mem_append.mp hc with hcf | hcw
    · obtain ⟨n, hn, heq⟩ := List.mem_map.mp hcf
      obtain ⟨hnf, hnd⟩ := List.mem_filter.mp hn
      exact ⟨[], n, root, by simp [visitedAt], hnf, hnd, heq.symm⟩
    · obtain ⟨d0, path, n, cs, h1, h2, h3, h4⟩ :=
        walkList_complete (sizeOf root) root le_rfl [] hwf comps hcw
      exact ⟨d0 :: path, n, cs, h1, h2, by simpa using h3, by simpa using h4⟩
  · rintro ⟨path, n, cs, h1, h2, h3, h4⟩
    subst h4
    have := visited_file_mem_discoverAt path [] root cs n h1 h2 (by simpa using h3)
    simpa [discoverAt, discover_files] using this

/-- C1: a file visited by the walk whose relative path is in allowed_files,
or whose extension is non-empty and in allowed_extensions, is in the result
list unconditionally: no hypothesis restricts its name, relative path or
extension with respect to ignored_files, ignored_extensions or the
gitignore matcher, so force-allow overrides every file-level exclusion. -/
theorem spec_C1 (cfg : Config) (spec : Option (String → Bool)) (root cs : List Entry)
    (path : List String) (n : String)
    (hv : visitedAt cfg spec [] root path = some cs)
    (hn : n ∈ filesOf cs)
    (hallow : relPath (path ++ [n]) ∈ cfg.allowed_files ∨
              (extOf n ≠ "" ∧ extOf n ∈ cfg.allowed_extensions)) :
    path ++ [n] ∈ discover_files cfg spec root := by
  have hforce : isForceAllowed cfg path n = true := by
    unfold isForceAllowed
    rcases hallow with h | ⟨h1, h2⟩
    · simp only [Bool.or_eq_true]
      exact Or.inl (List.elem_iff.mpr h)
    · simp only [Bool.or_eq_true, Bool.and_eq_true]
      exact Or.inr ⟨bne_iff_ne.mpr h1, List.elem_iff.mpr h2⟩
  have hd : fileDecision cfg spec path n = true := fileDecision_of_forceAllowed hforce
  have := visited_file_mem_discoverAt path [] root cs n hv hn (by simpa using hd)
  simpa [discoverAt, discover_files] using this

/-- Witness for C1: with allowed_files = [".env"], the file ".env" (whose
name is even in the default ignored_files set) is discovered. -/
theorem spec_C1_witness :
    [".env"] ∈ discover_files
      (load_config (some ⟨none, some [".env"], none, none, none, none, false⟩))
      none [Entry.file ".env"] :=
  spec_C1 _ none [Entry.file ".env"] [Entry.file ".env"] [] ".env" rfl
    (by decide) (Or.inl (by decide))

/-- C2: when a directory's bare name or relative path is in ignored_dirs,
or the gitignore matcher matches its relative path with a trailing slash,
the walk prunes it: no component path passing through that directory, at
any depth, is in the result list, force-allowed or not. -/
theorem spec_C2 (cfg : Config) (spec : Option (String → Bool)) (root : List Entry)
    (hwf : wfChildren root = true) (path : List String) (d : String)
    (hprune : isIgnoredDir cfg spec path d = true)
    (rest : List String) (n : String) :
    (path ++ d :: (rest ++ [n])) ∉ discover_files cfg spec root := by
  intro hmem
  obtain ⟨path', n', cs, h1, h2, h3, h4⟩ := (mem_discover_files_iff hwf).mp hmem
  have h4' : (path ++ d :: rest) ++ [n] = path' ++ [n'] := by
    simpa [List.append_assoc] using h4
  obtain ⟨hp', hn'⟩ := List.append_inj' h4' (by simp)
  subst hp'
  rw [show path ++ d :: rest = path ++ (d :: rest) from rfl,
      visitedAt_append path (d :: rest) [] root] at h1
  cases hv : visitedAt cfg spec [] root path with
  | none => rw [hv] at h1; simp at h1
  | some cs2 =>
    rw [hv] at h1
    simp only [List.nil_append] at h1
    unfold visitedAt at h1
    cases hfind : findDir cs2 d with
    | none => simp [hfind] at h1
    | some cs0 => simp [hfind, hprune] at h1

/-- Witness for C2: a file under ".git" stays out of the result even
though its extension ".env" is force-allowed by the configuration. -/
theorem spec_C2_witness :
    ([] ++ ".git" :: ([] ++ ["keep.env"])) ∉ discover_files
      (load_config (some ⟨none, none, some [".env"], none, none, none, false⟩))
      none [Entry.dir ".git" [Entry.file "keep.env"]] :=
  spec_C2 _ none [Entry.dir ".git" [Entry.file "keep.env"]] (by decide)
    [] ".git" (by decide) [] "keep.env"

/-- C3: with a non-empty allowed_dirs, a file that is not force-allowed and
whose relative path starts with no allowed_dirs entry is never in the
result list; and in the concrete scenario with allowed_dirs = ["src/"],
src/main.go alone is discovered. -/
theorem spec_C3 :
    (∀ (cfg : Config) (spec : Option (String → Bool)) (root : List Entry)
       (path : List String) (n : String),
       wfChildren root = true →
       cfg.allowed_dirs ≠ [] →
       isForceAllowed cfg path n = false →
       (∀ p ∈ cfg.allowed_dirs, strStartsWith (relPath (path ++ [n])) p = false) →
       (path ++ [n]) ∉ discover_files cfg spec root) ∧
    discover_files (load_config (some ⟨some ["src/"], none, none, none, none, none, false⟩))
      none [Entry.dir "src" [Entry.file "main.go"], Entry.dir "tools" [Entry.file "build.go"]]
      = [["src", "main.go"]] := by
  constructor
  · intro cfg spec root path n hwf hne hforce hdirs hmem
    obtain ⟨path', n', cs, h1, h2, h3, h4⟩ := (mem_discover_files_iff hwf).mp hmem
    obtain ⟨hp', hn'⟩ := List.append_inj' h4 (by simp)
    have hnn : n = n' := by simpa using hn'
    subst hp'
    subst hnn
    have h1e : cfg.allowed_dirs.isEmpty = false := by
      cases hl : cfg.allowed_dirs with
      | nil => exact absurd hl hne
      | cons a l => rfl
    have h2e : (cfg.allowed_dirs.any fun p => strStartsWith (relPath (path ++ [n])) p) = false := by
      simp only [List.any_eq_false]
      intro p hp
      simp [hdirs p hp]
    have hdec : fileDecision cfg spec path n = false := by
      unfold fileDecision
      simp [hforce, h1e, h2e]
    rw [h3] at hdec
    exact Bool.true_eq_false.mp hdec
  · decide

/-- Witness for C3: tools/build.go is excluded in scenario E. -/
theorem spec_C3_witness :
    (["tools"] ++ ["build.go"]) ∉ discover_files
      (load_config (some ⟨some ["src/"], none, none, none, none, none, false⟩))
      none [Entry.dir "src" [Entry.file "main.go"], Entry.dir "tools" [Entry.file "build.go"]] :=
  spec_C3.1 _ none _ ["tools"] "build.go" (by decide) (by decide) (by decide) (by decide)

/-- C4: an empty [tool.llmcontext] section (the falsy user_config
dictionary load_config sees both when the section is absent and when it is
empty) yields exactly the same policy as having no configuration file, and
both are the built-in defaults; load_config is total, so no error arises. -/
theorem spec_C4 :
    load_config (some ⟨none, none, none, none, none, none, false⟩) = load_config none ∧
    load_config none = defaultConfig :=
  ⟨rfl, rfl⟩

/-- Heap of Python set objects: a cell per set, addressed by index.
Reading an unallocated address yields the empty set (never reached in the
modelled code). -/
structure Store where
  cells : List (List String)

def readCell (st : Store) (a : Nat) : List String :=
  st.cells.getD a []

/-- set.copy() / set(...): allocate a fresh cell holding the given value. -/
def alloc (st : Store) (v : List String) : Store × Nat :=
  ({ cells := st.cells ++ [v] }, st.cells.length)

/-- set.update(xs): in-place union into the cell at address a. -/
def updateCell (st : Store) (a : Nat) (xs : List String) : Store :=
  { cells := st.cells.set a (st.cells.getD a [] ++ xs) }

/-- Addresses of the six set objects of a config dictionary. -/
structure ConfigAddrs where
  allowed_dirs : Nat
  allowed_files : Nat
  allowed_extensions : Nat
  ignored_dirs : Nat
  ignored_files : Nat
  ignored_extensions : Nat

/-- load_config with the Python object store explicit: the config
dictionary is built from copies of the six default sets (six fresh cells);
when a truthy user section exists, the three allowed entries are reassigned
to freshly constructed sets and the three ignored entries are updated in
place — on the copies, never on the cells holding the defaults. -/
def load_configStore (st0 : Store) (defs : ConfigAddrs) (sec? : Option UserSection) :
    Store × ConfigAddrs :=
  let p1 := alloc st0 (readCell st0 defs.allowed_dirs)
  let p2 := alloc p1.1 (readCell p1.1 defs.allowed_files)
  let p3 := alloc p2.1 (readCell p2.1 defs.allowed_extensions)
  let p4 := alloc p3.1 (readCell p3.1 defs.ignored_dirs)
  let p5 := alloc p4.1 (readCell p4.1 defs.ignored_files)
  let p6 := alloc p5.1 (readCell p5.1 defs.ignored_extensions)
  let st := p6.1
  match sec? with
  | none => (st, ⟨p1.2, p2.2, p3.2, p4.2, p5.2, p6.2⟩)
  | some sec =>
    if sec.truthy then
      let q1 := alloc st (sec.allowed_dirs.getD (readCell st defs.allowed_dirs))
      let q2 := alloc q1.1 (sec.allowed_files.getD (readCell q1.1 defs.allowed_files))
      let q3 := alloc q2.1 (sec.allowed_extensions.getD (readCell q2.1 defs.allowed_extensions))
      let r1 := updateCell q3.1 p4.2 (sec.ignored_dirs.getD [])
      let r2 := updateCell r1 p5.2 (sec.ignored_files.getD [])
      let r3 := updateCell r2 p6.2 (sec.ignored_extensions.getD [])
      (r3, ⟨q1.2, q2.2, q3.2, p4.2, p5.2, p6.2⟩)
    else (st, ⟨p1.2, p2.2, p3.2, p4.2, p5.2, p6.2⟩)

lemma getD_append_left {α : Type} (d : α) :
    ∀ (l l' : List α) (a : Nat), a < l.length → (l ++ l').getD a d = l.getD a d := by
  intro l
  induction l with
  | nil => intro l' a ha; simp at ha
  | cons x xs ih =>
    intro l' a ha
    cases a with
    | zero => rfl
    | succ a =>
      simp only [List.cons_append, List.getD, List.getElem?_cons_succ]
      have := ih l' a (by simpa using ha)
      simpa [List.getD] using this

lemma getD_set_ne {α : Type} (d v : α) :
    ∀ (l : List α) (i a : Nat), i ≠ a → (l.set i v).getD a d = l.getD a d := by
  intro l
  induction l with
  | nil => intro i a _; simp
  | cons x xs ih =>
    intro i a hne
    cases i with
    | zero =>
      cases a with
      | zero => exact absurd rfl hne
      | succ a => rfl
    | succ i =>
      cases a with
      | zero => rfl
      | succ a =>
        simp only [List.set_cons_succ, List.getD, List.getElem?_cons_succ]
        have := ih i a (by omega)
        simpa [List.getD] using this

lemma readCell_alloc {st : Store} {v : List String} {a : Nat}
    (ha : a < st.cells.length) : readCell (alloc st v).1 a = readCell st a :=
  getD_append_left [] st.cells [v] a ha

lemma alloc_length (st : Store) (v : List String) :
    (alloc st v).1.cells.length = st.cells.length + 1 := by
  simp [alloc]

lemma alloc_addr (st : Store) (v : List String) :
    (alloc st v).2 = st.cells.length := rfl

lemma readCell_updateCell_ne {st : Store} {i : Nat} {xs : List String} {a : Nat}
    (hne : i ≠ a) : readCell (updateCell st i xs) a = readCell st a :=
  getD_set_ne [] _ st.cells i a hne

lemma updateCell_length (st : Store) (i : Nat) (xs : List String) :
    (updateCell st i xs).cells.length = st.cells.length := by
  simp [updateCell]

/-- C5: load_config never writes through the addresses of the default
sets: every cell that exists before the call — in particular each of the
six DEFAULT cells — holds the same value afterwards, because the config
dictionary is built from freshly allocated copies and the in-place updates
hit only those copies. -/
theorem spec_C5 (st0 : Store) (defs : ConfigAddrs) (sec? : Option UserSection)
    (a : Nat) (ha : a < st0.cells.length) :
    readCell (load_configStore st0 defs sec?).1 a = readCell st0 a := by
  cases sec? with
  | none =>
    simp only [load_configStore]
    rw [readCell_alloc, readCell_alloc, readCell_alloc,
        readCell_alloc, readCell_alloc, readCell_alloc]
    all_goals try simp only [alloc_addr, alloc_length, updateCell_length]
    all_goals omega
  | some sec =>
    simp only [load_configStore]
    by_cases ht : sec.truthy = true
    · rw [if_pos ht]
      rw [readCell_updateCell_ne, readCell_updateCell_ne, readCell_updateCell_ne,
          readCell_alloc, readCell_alloc, readCell_alloc,
          readCell_alloc, readCell_alloc, readCell_alloc,
          readCell_alloc, readCell_alloc, readCell_alloc]
      all_goals try simp only [alloc_addr, alloc_length, updateCell_length]
      all_goals omega
    · rw [if_neg ht]
      rw [readCell_alloc, readCell_alloc, readCell_alloc,
          readCell_alloc, readCell_alloc, readCell_alloc]
      all_goals try simp only [alloc_addr, alloc_length, updateCell_length]
      all_goals omega

/-- Witness for C5: a store holding the actual default ignore sets at
addresses 0 to 2; after a run applying user ignore entries, those cells
still hold the defaults. -/
theorem spec_C5_witness :
    readCell
      (load_configStore ⟨[DEFAULT_IGNORED_DIRS, DEFAULT_IGNORED_FILES, DEFAULT_IGNORED_EXTENSIONS]⟩
        ⟨0, 0, 0, 0, 1, 2⟩
        (some ⟨none, none, none, some ["custom_dir"], some ["custom.file"], none, true⟩)).1
      0 = DEFAULT_IGNORED_DIRS :=
  (spec_C5 ⟨[DEFAULT_IGNORED_DIRS, DEFAULT_IGNORED_FILES, DEFAULT_IGNORED_EXTENSIONS]⟩
    ⟨0, 0, 0, 0, 1, 2⟩
    (some ⟨none, none, none, some ["custom_dir"], some ["custom.file"], none, true⟩)
    0 (by decide)).trans rfl

/-- One file block of the output artifact: the heading names the relative
path, the code fence carries the language tag, then the file content. -/
structure Block where
  heading : String
  lang : String
  content : String
deriving Repr

/-- Language tag of a filename: the splitext extension of the relative
path (only its final component can contribute, since the dot must follow
the last separator) with leading dots stripped by lstrip('.'). -/
def langOf (filename : String) : String :=
  String.mk ((extOf filename).data.dropWhile (fun c => c == '.'))

/-- Content of a file on disk as the reading step of main sees it:
whether the raw bytes are valid UTF-8, and the string that decoding with
errors=ignore yields — the full text when the bytes are valid, the text
with every undecodable byte silently dropped otherwise.  The errors=ignore
mode makes decoding total: it never raises. -/
structure RawContent where
  utf8Valid : Bool
  decodedIgnore : String
deriving Repr

/-- The writing loop of main over the discovered list.  readFile comps =
none models a read that raises (an unreadable file: permission error,
vanished file), which the except handlers catch, log and skip.  A file
whose bytes do not decode as UTF-8 is some rc with rc.utf8Valid = false,
not none: the open in main uses errors=ignore, so read() returns the
lossily decoded string without raising, the UnicodeDecodeError handler is
unreachable, and the file gets a block like any readable file. -/
def writeBlocks (readFile : List String → Option RawContent) (files : List (List String)) :
    List Block :=
  files.filterMap fun comps =>
    (readFile comps).map fun rc =>
      { heading := relPath comps, lang := langOf ((comps.getLast?).getD ""),
        content := rc.decodedIgnore }

/-- Outcome of a run of main after discovery: either the no-files report
(no output file is ever opened) or the written artifact, a header followed
by the blocks. -/
inductive MainOutcome where
  | noFiles : MainOutcome
  | wrote : String → List Block → MainOutcome
deriving Repr

/-- main after load_config and load_gitignore_spec: discover, stop if the
list is empty, otherwise open the output and write header and blocks. -/
def mainRun (projectName : String) (cfg : Config) (spec : Option (String → Bool))
    (root : List Entry) (readFile : List String → Option RawContent) : MainOutcome :=
  let files := discover_files cfg spec root
  if files.isEmpty then MainOutcome.noFiles
  else MainOutcome.wrote ("# Context for Project: " ++ projectName ++ "\n\n")
         (writeBlocks readFile files)

lemma writeBlocks_mem {readFile : List String → Option RawContent}
    {files : List (List String)} {b : Block} (hb : b ∈ writeBlocks readFile files) :
    ∃ comps, comps ∈ files ∧ b.heading = relPath comps ∧
      (readFile comps).map RawContent.decodedIgnore = some b.content := by
  obtain ⟨comps, hcomps, hf⟩ := List.mem_filterMap.mp hb
  cases hr : readFile comps with
  | none => rw [hr] at hf; simp at hf
  | some rc =>
    rw [hr] at hf
    simp only [Option.map_some', Option.some.injEq] at hf
    exact ⟨comps, hcomps, by rw [← hf], by rw [hr, ← hf]; rfl⟩

lemma writeBlocks_count {readFile : List String → Option RawContent} :
    ∀ (files : List (List String)), (files.map relPath).Nodup →
      ∀ comps ∈ files,
        ((writeBlocks readFile files).map Block.heading).count (relPath comps) =
          if (readFile comps).isSome then 1 else 0 := by
  intro files
  induction files with
  | nil => intro _ comps h; simp at h
  | cons f fs ih =>
    intro hnd comps hcomps
    have hnd' : (fs.map relPath).Nodup := (List.nodup_cons.mp (by simpa using hnd)).2
    have hnotin : relPath f ∉ fs.map relPath := (List.nodup_cons.mp (by simpa using hnd)).1
    have hrest0 : relPath f ∉ (writeBlocks readFile fs).map Block.heading := by
      intro hinmap
      obtain ⟨b, hb, hbh⟩ := List.mem_map.mp hinmap
      obtain ⟨comps', hcomps', hh, _⟩ := writeBlocks_mem hb
      exact hnotin (by rw [← hbh, hh]; exact List.mem_map_of_mem relPath hcomps')
    rcases List.mem_cons.mp hcomps with rfl | hmem
    · cases hr : readFile comps with
      | none =>
        simp only [writeBlocks, List.filterMap_cons, hr, Option.map_none']
        rw [List.count_eq_zero.mpr (by exact fun h => hrest0 h)]
        simp
      | some c =>
        simp only [writeBlocks, List.filterMap_cons, hr, Option.map_some']
        rw [List.map_cons]
        rw [List.count_cons_self]
        rw [List.count_eq_zero.mpr (by exact fun h => hrest0 h)]
        simp
    · have hne : relPath comps ≠ relPath f := by
        intro he
        exact hnotin (he ▸ List.mem_map_of_mem relPath hmem)
      cases hr : readFile f with
      | none =>
        simp only [writeBlocks, List.filterMap_cons, hr, Option.map_none']
        exact ih hnd' comps hmem
      | some c =>
        simp only [writeBlocks, List.filterMap_cons, hr, Option.map_some']
        rw [List.map_cons, List.count_cons_of_ne hne]
        exact ih hnd' comps hmem

/-- C6: main writes nothing when and only when the discovery result is
empty: the no-files outcome is reported exactly for an empty list, and the
output artifact is only ever constructed after the emptiness check fails. -/
theorem spec_C6 (projectName : String) (cfg : Config) (spec : Option (String → Bool))
    (root : List Entry) (readFile : List String → Option RawContent) :
    mainRun projectName cfg spec root readFile = MainOutcome.noFiles ↔
      discover_files cfg spec root = [] := by
  unfold mainRun
  by_cases h : (discover_files cfg spec root).isEmpty = true
  · simp [h, List.isEmpty_iff.mp h]
  · have : ¬ discover_files cfg spec root = [] := fun he => h (by simp [he])
    simp [h, this]

/-- C7, undecodable-file conjunct refuted on the code: the block-to-file
correspondence holds (writeBlocks_mem, writeBlocks_count: every block
stems from one discovered file with the discovery's relative path as
heading, no block outside the list, a file whose read raises yields no
block), but main opens with errors=ignore, so a file whose bytes are not
valid UTF-8 never raises UnicodeDecodeError — the handler that was meant
to skip it is unreachable — and the file IS emitted as a block carrying
the lossily decoded text.  This theorem evaluates the writing loop at the
failing input, one undecodable file: where the claim demands no block, the
output is exactly one block for that file. -/
theorem spec_C7_bug :
    writeBlocks (fun c => if c = ["data.bin"] then some ⟨false, "caf"⟩ else none)
      [["data.bin"]]
      = [{ heading := "data.bin", lang := "bin", content := "caf" }] := rfl

/-- C8: ignored_dirs and ignored_files tests are exact string equality,
never glob matching: the wildcard entries match only their literal
spelling, so under the default policy editor.swp and .env.staging are
discovered and pkg.egg-info is descended into; in general, with the
default policy a file is rejected by the ignore step exactly when one of
the literal membership tests fires. -/
theorem spec_C8 :
    (("*.swp" ∈ DEFAULT_IGNORED_FILES ∧ "editor.swp" ∉ DEFAULT_IGNORED_FILES) ∧
     ("*.egg-info" ∈ DEFAULT_IGNORED_DIRS ∧ "pkg.egg-info" ∉ DEFAULT_IGNORED_DIRS) ∧
     (".env.*" ∈ DEFAULT_IGNORED_FILES ∧ ".env.staging" ∉ DEFAULT_IGNORED_FILES)) ∧
    discover_files defaultConfig none [Entry.file "editor.swp"] = [["editor.swp"]] ∧
    discover_files defaultConfig none
      [Entry.dir "pkg.egg-info" [Entry.file "code.py"]] = [["pkg.egg-info", "code.py"]] ∧
    discover_files defaultConfig none [Entry.file ".env.staging"] = [[".env.staging"]] ∧
    (∀ (pre : List String) (name : String),
      fileDecision defaultConfig none pre name = false ↔
        (name ∈ DEFAULT_IGNORED_FILES ∨ relPath (pre ++ [name]) ∈ DEFAULT_IGNORED_FILES ∨
         (extOf name ≠ "" ∧ extOf name ∈ DEFAULT_IGNORED_EXTENSIONS))) := by
  refine ⟨by decide, by decide, by decide, by decide, ?_⟩
  intro pre name
  have hforce : isForceAllowed defaultConfig pre name = false := by
    simp [isForceAllowed, defaultConfig, DEFAULT_ALLOWED_FILES, DEFAULT_ALLOWED_EXTENSIONS]
  simp only [fileDecision, hforce, Bool.false_eq_true, if_false]
  simp [defaultConfig, DEFAULT_ALLOWED_DIRS, specMatch, List.elem_iff, bne_iff_ne]
  tauto

/-- C9: a dotfile — one leading dot, no further dot — has extension "", so
ignored_extensions entries such as ".gitignore" never exclude it and
allowed_extensions entries never force-allow it; under the default policy
with no gitignore matcher, .gitignore and .dockerignore are discovered
although ".gitignore" and ".dockerignore" sit in the default
ignored_extensions set. -/
theorem spec_C9 :
    (∀ (cs : List Char), '.' ∉ cs → extOf (String.mk ('.' :: cs)) = "") ∧
    extOf ".gitignore" = "" ∧ ".gitignore" ∈ DEFAULT_IGNORED_EXTENSIONS ∧
    (∀ (cfg : Config) (pre : List String) (name : String), extOf name = "" →
        isForceAllowed cfg pre name = cfg.allowed_files.contains (relPath (pre ++ [name]))) ∧
    discover_files defaultConfig none [Entry.file ".gitignore"] = [[".gitignore"]] ∧
    discover_files defaultConfig none [Entry.file ".dockerignore"] = [[".dockerignore"]] := by
  refine ⟨?_, by decide, by decide, ?_, by decide, by decide⟩
  · intro cs h
    have hdata : (String.mk ('.' :: cs)).data = '.' :: cs := rfl
    have h3 : ((('.' :: cs).dropWhile (fun c => c == '.')).contains '.') = false := by
      have h2 : ('.' :: cs).dropWhile (fun c => c == '.') = cs.dropWhile (fun c => c == '.') := by
        simp [List.dropWhile_cons]
      rw [h2, ← Bool.not_eq_true]
      intro hc
      exact h ((List.dropWhile_sublist _).subset (List.elem_iff.mp hc))
    simp only [extOf, hdata, h3, Bool.false_eq_true, if_false]
  · intro cfg pre name hext
    unfold isForceAllowed
    rw [hext]
    simp

/-- Witness for C9: instantiating the dotfile lemma at ".gitignore". -/
theorem spec_C9_witness :
    ('.' ∉ "gitignore".data) ∧ extOf (String.mk ('.' :: "gitignore".data)) = "" :=
  ⟨by decide, spec_C9.1 "gitignore".data (by decide)⟩

/-- C10: the allowed_dirs restriction is a raw character-prefix test on the
relative path, not a path-component test — with allowed_dirs = ["src"],
both src2/main.go and srcfile.py pass — and it plays no role in directory
pruning: the pruning test reads only ignored_dirs and the matcher, so the
walk still descends into directories outside allowed_dirs, where a
force-allowed file is found. -/
theorem spec_C10 :
    (∀ (cfg : Config) (l : List String) (spec : Option (String → Bool))
       (pre : List String) (d : String),
       isIgnoredDir { cfg with allowed_dirs := l } spec pre d = isIgnoredDir cfg spec pre d) ∧
    strStartsWith "src2/main.go" "src" = true ∧
    strStartsWith "srcfile.py" "src" = true ∧
    discover_files { defaultConfig with allowed_dirs := ["src"] } none
      [Entry.dir "src2" [Entry.file "main.go"], Entry.file "srcfile.py",
       Entry.dir "tools" [Entry.file "keep.go"]]
      = [["srcfile.py"], ["src2", "main.go"]] ∧
    discover_files { defaultConfig with allowed_dirs := ["src"], allowed_files := ["tools/keep.bin"] }
      none [Entry.dir "tools" [Entry.file "keep.bin"]] = [["tools", "keep.bin"]] :=
  ⟨fun _ _ _ _ _ => rfl, by decide, by decide, by decide, by decide⟩
